import Mathlib

/-!
Shallow embedding of src/blog4go.go: the BLog formatting writer, its
single-pass placeholder scanner (writef), the literal write, and the
buffer lifecycle (flush, Close, resetFile).  Strings are embedded as
`List Char`; the claims concern ASCII formats, for which the byte
positions used by the source coincide with character positions.
Collaborators living outside src/ (the Level catalog, the timestamp
cache, fmt.Sprintf, io.Writer, bufio.Writer) are modelled from the spec,
as marked on each definition.
-/

namespace Blog4go

/-- EOL, end of a line (src/blog4go.go constant). -/
def EOL : Char := '\n'

/-- ESCAPE, the escape character (src/blog4go.go constant). -/
def ESCAPE : Char := '\\'

/-- PLACEHOLDER, the placeholder marker (src/blog4go.go constant). -/
def PLACEHOLDER : Char := '%'

/-- Modelled from the spec: the Level Catalog (the repository file that
declares the `Level` type is not under src/): severities in the order
debug < trace < info < warn < error < critical. -/
inductive Level where
  | debug | trace | info | warn | error | critical
deriving DecidableEq

/-- Modelled from the spec: the Level Catalog maps each severity to a
stable prefix byte sequence (`Level.Prefix` in the source interface); its
concrete text lives outside src/, so a representative stable tag is used
here, and every general theorem treats it opaquely. -/
def Level.prefixStr : Level → List Char
  | .debug => "[DEBUG] ".toList
  | .trace => "[TRACE] ".toList
  | .info => "[INFO] ".toList
  | .warn => "[WARN] ".toList
  | .error => "[ERROR] ".toList
  | .critical => "[CRITICAL] ".toList

/-- A positional argument: the Go interface values the claims exercise
(strings and integers). -/
inductive Arg where
  | str (s : List Char)
  | int (n : Int)
deriving DecidableEq

/-- Modelled from the spec: generic value-to-text formatting keyed by the
verb (fmt.Sprintf, external to this repository): verb s renders a string
argument as itself and verb d renders an integer in decimal; other verb
compositions are not exercised by the claims and fall back to the
captured placeholder text.  The general scanner theorems are parametric
in this function. -/
def sprintfModel : List Char → Arg → List Char
  | ['%', 's'], .str s => s
  | ['%', 'd'], .int n => (toString n).toList
  | spec, _ => spec

/-- The verb characters of the scanner's switch (src/blog4go.go). -/
def verbChars : List Char :=
  ['d', 'f', 'v', 'b', 'o', 'x', 'X', 'c', 'p', 't', 's', 'T', 'q', 'U',
   'e', 'E', 'g', 'G']

/-- Whether a character is one of the scanner's verbs. -/
def isVerb (c : Char) : Bool := verbChars.contains c

/-- The Go slice format[a:b] over the character-list embedding. -/
def slice (l : List Char) (a b : Nat) : List Char := (l.take b).drop a

/-- The writef scan-loop state (src/blog4go.go): `tag` is the
inside-a-placeholder flag, `tagPos` the position where the current
placeholder began, `escape` the escape-pending flag, `n` the index of the
next unconsumed argument, `last` the start of the unflushed literal run,
`size` the running byte count; `out` accumulates the body bytes the loop
has passed to the buffered writer so far. -/
structure ScanState where
  tag : Bool
  tagPos : Nat
  escape : Bool
  n : Nat
  last : Nat
  size : Nat
  out : List Char
deriving DecidableEq

/-- Scanner state at loop entry: `size` starts at the length of the
already-written timestamp plus level prefix (src/blog4go.go). -/
def scanInit (sz0 : Nat) : ScanState :=
  { tag := false, tagPos := 0, escape := false, n := 0, last := 0,
    size := sz0, out := [] }

/-- One iteration of the writef scan loop (src/blog4go.go) at position `i`
holding character `v` (for the ASCII formats the claims concern, `v` is
format[i]).  The result `none` models the out-of-range access `args[n]`,
a runtime fault in the source, hit when the arguments run out before the
placeholders do. -/
def scanChar (sp : List Char → Arg → List Char) (args : List Arg)
    (format : List Char) (i : Nat) (v : Char) (st : ScanState) :
    Option ScanState :=
  if st.tag then
    if isVerb v then
      match args[st.n]? with
      | none => none
      | some a =>
        let r := sp (slice format st.tagPos (i + 1)) a
        some { st with escape := false, out := st.out ++ r,
                       size := st.size + r.length, n := st.n + 1,
                       last := i + 1, tag := false }
    else if v = ESCAPE then
      if st.escape then
        some { st with out := st.out ++ [ESCAPE], size := st.size + 1,
                       escape := false }
      else
        some { st with escape := true }
    else
      some st
  else
    if v = PLACEHOLDER ∧ st.escape = false then
      some { st with tag := true, tagPos := i,
                     out := st.out ++ slice format st.last i,
                     size := st.size + (slice format st.last i).length,
                     escape := false }
    else
      some st

/-- The writef scan loop (src/blog4go.go): left-to-right over the
characters still to visit, with `i` the position of the next one; the
full `format` is carried for the source's slicing expressions. -/
def scanLoop (sp : List Char → Arg → List Char) (args : List Arg)
    (format : List Char) : Nat → List Char → ScanState → Option ScanState
  | _, [], st => some st
  | i, v :: rest, st =>
    match scanChar sp args format i v st with
    | none => none
    | some st1 => scanLoop sp args format (i + 1) rest st1

/-- BLog.writef (src/blog4go.go) at the level of the bytes the call
appends to the buffered stream: the timestamp (timeCache.format, a
pre-rendered byte sequence owned outside src/) and the level prefix,
then the scanned body, the trailing literal run and the EOL byte,
together with the byte count the call returns.  `none` models the
runtime fault on argument underflow. -/
def writefRun (sp : List Char → Arg → List Char) (timeFmt : List Char)
    (level : Level) (format : List Char) (args : List Arg) :
    Option (List Char × Nat) :=
  match scanLoop sp args format 0 format
      (scanInit (timeFmt.length + level.prefixStr.length)) with
  | none => none
  | some st =>
    some (timeFmt ++ level.prefixStr ++ st.out ++ format.drop st.last ++ [EOL],
          st.size + (format.drop st.last).length + 1)

/-- Modelled from the spec: the sink abstraction (io.Writer, external): a
destination accepting appended bytes; a failing sink reports an I/O error
and accepts nothing. -/
structure Sink where
  contents : List Char
  fail : Bool
deriving DecidableEq

/-- Modelled from the spec: one append to the sink, returning the I/O
error, if any. -/
def sinkWrite (sk : Sink) (s : List Char) : Sink × Option String :=
  if sk.fail then (sk, some "sink write error")
  else ({ sk with contents := sk.contents ++ s }, none)

/-- Modelled from the spec: the buffered stream (bufio.Writer, external):
an in-memory accumulation buffer of configurable capacity over the
destination sink. -/
structure BufWriter where
  buf : List Char
  cap : Nat
deriving DecidableEq

/-- Modelled from the spec: flushing the buffered stream forces all
buffered bytes to the destination; a flush of an empty buffer performs no
sink call; on a sink error the unwritten bytes are retained and the error
is reported. -/
def bwFlush (w : BufWriter) (sk : Sink) : BufWriter × Sink × Option String :=
  if w.buf.isEmpty then (w, sk, none)
  else
    match sinkWrite sk w.buf with
    | (sk1, none) => ({ w with buf := [] }, sk1, none)
    | (sk1, some e) => (w, sk1, some e)

/-- Modelled from the spec: a buffered write copies into the in-memory
buffer and returns quickly unless the buffer would overflow, in which
case an implicit synchronous flush to the destination happens first; a
write larger than the whole capacity goes to the sink directly. -/
def bwWrite (w : BufWriter) (sk : Sink) (s : List Char) :
    BufWriter × Sink × Option String :=
  if w.buf.length + s.length ≤ w.cap then
    ({ w with buf := w.buf ++ s }, sk, none)
  else
    match bwFlush w sk with
    | (w1, sk1, none) =>
      if s.length ≤ w1.cap then ({ w1 with buf := s }, sk1, none)
      else
        match sinkWrite sk1 s with
        | (sk2, e) => (w1, sk2, e)
    | (w1, sk1, some e) => (w1, sk1, some e)

/-- BLog struct (src/blog4go.go): severity threshold, destination sink,
and the bufio writer over it.  `writer = none` models the nil pointer
stored by Close; the mutex serializes calls and therefore does not appear
in this sequential state. -/
structure BLog where
  level : Level
  sink : Sink
  writer : Option BufWriter
deriving DecidableEq

/-- NewBLog (src/blog4go.go): a fresh writer bound to a destination, at
the most verbose threshold, with an empty buffer of the configured
capacity (DefaultBufferSize, the host page size, is a runtime value, so
the capacity is a parameter here). -/
def NewBLog (sk : Sink) (bufSize : Nat) : BLog :=
  { level := Level.debug, sink := sk,
    writer := some { buf := [], cap := bufSize } }

/-- All bytes a writer has accepted, in order: what the sink holds plus
what still sits in the buffer. -/
def streamBytes (b : BLog) : List Char :=
  b.sink.contents ++ (match b.writer with | none => [] | some w => w.buf)

/-- BLog.write (src/blog4go.go): appends timestamp bytes, level prefix,
the message verbatim and the EOL byte to the buffered stream and returns
the summed length; the source ignores the bufio write errors, and `none`
models the nil dereference after Close. -/
def BLog.write (blog : BLog) (timeFmt : List Char) (level : Level)
    (format : List Char) : Option (BLog × Nat) :=
  match blog.writer with
  | none => none
  | some w =>
    match bwWrite w blog.sink timeFmt with
    | (w1, sk1, _) =>
      match bwWrite w1 sk1 level.prefixStr with
      | (w2, sk2, _) =>
        match bwWrite w2 sk2 format with
        | (w3, sk3, _) =>
          match bwWrite w3 sk3 [EOL] with
          | (w4, sk4, _) =>
            some ({ blog with sink := sk4, writer := some w4 },
                  timeFmt.length + level.prefixStr.length + format.length + 1)

/-- BLog.writef (src/blog4go.go) at the writer level: the bytes the
source's interleaved writer calls emit (computed by `writefRun`) are
posted to the buffered stream; a call that faults (argument underflow, or
the nil dereference after Close) is modelled as a whole-call fault. -/
def BLog.writef (blog : BLog) (sp : List Char → Arg → List Char)
    (timeFmt : List Char) (level : Level) (format : List Char)
    (args : List Arg) : Option (BLog × Nat) :=
  match blog.writer with
  | none => none
  | some w =>
    match writefRun sp timeFmt level format args with
    | none => none
    | some (bytes, sz) =>
      match bwWrite w blog.sink bytes with
      | (w1, sk1, _) =>
        some ({ blog with sink := sk1, writer := some w1 }, sz)

/-- BLog.flush (src/blog4go.go): flushes the buffered stream under the
lock; the error bufio Flush reports is discarded (the source ignores it)
and the function returns nothing; `none` models the nil dereference after
Close. -/
def BLog.flush (blog : BLog) : Option BLog :=
  match blog.writer with
  | none => none
  | some w =>
    match bwFlush w blog.sink with
    | (w1, sk1, _) => some { blog with sink := sk1, writer := some w1 }

/-- BLog.Close (src/blog4go.go): flushes, then stores nil into the writer
field; the Flush error is discarded; `none` models the nil dereference if
Close is called on an already-closed writer. -/
def BLog.Close (blog : BLog) : Option BLog :=
  match blog.writer with
  | none => none
  | some w =>
    match bwFlush w blog.sink with
    | (_, sk1, _) => some { blog with sink := sk1, writer := none }

/-- BLog.resetFile (src/blog4go.go): flushes the buffered stream, rebinds
the writer to the new sink (bufio Reset keeps the buffer storage, hence
the capacity, and empties it).  The declared error result is never
assigned in the source, so the returned error component is always nil;
the Flush error is discarded.  The old sink, as it stands after the
flush, is returned so its final contents can be observed; the outer
`none` models the nil dereference after Close. -/
def BLog.resetFile (blog : BLog) (newSink : Sink) :
    Option (BLog × Sink × Option String) :=
  match blog.writer with
  | none => none
  | some w =>
    match bwFlush w blog.sink with
    | (w1, sk1, _) =>
      some ({ blog with
                sink := newSink,
                writer := some { buf := [], cap := w1.cap } },
            sk1, none)

/-- A sequence of literal write calls, each a severity and a message;
models consecutive BLog.write calls (the lock serializes them). -/
def runWrites (timeFmt : List Char) (b : BLog) :
    List (Level × List Char) → Option BLog
  | [] => some b
  | m :: ms =>
    match BLog.write b timeFmt m.1 m.2 with
    | none => none
    | some (b1, _) => runWrites timeFmt b1 ms

/-- The bytes a sequence of literal writes emits: one full line per
message. -/
def encodeMsgs (timeFmt : List Char) : List (Level × List Char) → List Char
  | [] => []
  | m :: ms => (timeFmt ++ m.1.prefixStr ++ m.2 ++ [EOL]) ++ encodeMsgs timeFmt ms

/-- A format-string token: a literal character, or a placeholder with its
flag/width characters and its verb. -/
inductive Tok where
  | lit (c : Char)
  | ph (flags : List Char) (verb : Char)
deriving DecidableEq

/-- The characters a token contributes to the format string. -/
def Tok.chars : Tok → List Char
  | .lit c => [c]
  | .ph flags v => PLACEHOLDER :: (flags ++ [v])

/-- A token is well formed when a literal is not the placeholder marker
and a placeholder carries a real verb and only flag/width characters that
are neither verbs nor the escape marker. -/
def Tok.goodb : Tok → Bool
  | .lit c => !(c = PLACEHOLDER : Bool)
  | .ph flags v => isVerb v && flags.all (fun c => !isVerb c && !(c = ESCAPE : Bool))

/-- The format string a token list denotes. -/
def flatten (ts : List Tok) : List Char := (ts.map Tok.chars).flatten

/-- The number of placeholders in a token list. -/
def countPh : List Tok → Nat
  | [] => 0
  | .lit _ :: ts => countPh ts
  | .ph _ _ :: ts => countPh ts + 1

/-- The text a placeholder renders to: the captured substring (marker,
flags, verb) formatted against one argument. -/
def phRender (sp : List Char → Arg → List Char) (flags : List Char)
    (v : Char) (a : Arg) : List Char :=
  sp (PLACEHOLDER :: (flags ++ [v])) a

/-- The body a well-formed format denotes: literals pass through
unchanged, each placeholder renders against the next argument, starting
at index `j`; `none` when the arguments run out. -/
def renderToks (sp : List Char → Arg → List Char) (args : List Arg) :
    Nat → List Tok → Option (List Char)
  | _, [] => some []
  | j, .lit c :: ts => (renderToks sp args j ts).map (fun b => c :: b)
  | j, .ph flags v :: ts =>
    match args[j]? with
    | none => none
    | some a => (renderToks sp args (j + 1) ts).map
        (fun b => phRender sp flags v a ++ b)

/-- Value of the scanner's `last` offset after a token list scanned from
position `i0`, given its value `l0` before: only a completed placeholder
moves it, to just past its verb. -/
def lastAfter (l0 i0 : Nat) : List Tok → Nat
  | [] => l0
  | .lit _ :: ts => lastAfter l0 (i0 + 1) ts
  | .ph flags _ :: ts =>
    lastAfter (i0 + (flags.length + 2)) (i0 + (flags.length + 2)) ts

/-! ### Helper lemmas about slices and the scan loop -/

theorem slice_self (l : List Char) (a : Nat) : slice l a a = [] := by
  unfold slice
  rw [List.drop_take]
  simp

theorem slice_length_all (l : List Char) (a : Nat) :
    slice l a l.length = l.drop a := by
  unfold slice
  rw [List.take_length]

theorem slice_mid (x m y : List Char) :
    slice (x ++ (m ++ y)) x.length (x.length + m.length) = m := by
  unfold slice
  have h1 : (x ++ (m ++ y)).take (x.length + m.length) = x ++ m := by
    rw [List.take_append_eq_append_take]
    congr 1
    · exact List.take_of_length_le (by omega)
    · simp
  rw [h1, List.drop_left]

theorem getElem?_append_cons (pre rest : List Char) (c : Char) :
    (pre ++ c :: rest)[pre.length]? = some c := by
  rw [List.getElem?_append_right (Nat.le_refl _)]
  simp

theorem slice_snoc {l : List Char} {a b : Nat} {c : Char} (hab : a ≤ b)
    (hc : l[b]? = some c) : slice l a (b + 1) = slice l a b ++ [c] := by
  unfold slice
  rw [List.take_succ, hc]
  simp only [Option.toList]
  rw [List.drop_append_eq_append_drop]
  have hb : b < l.length := by
    by_contra hcon
    push_neg at hcon
    rw [List.getElem?_eq_none (by omega)] at hc
    cases hc
  have hlen : (l.take b).length = b := by
    rw [List.length_take]
    omega
  rw [hlen]
  have hz : a - b = 0 := by omega
  rw [hz]
  simp

theorem scanLoop_nil (sp : List Char → Arg → List Char) (args : List Arg)
    (f : List Char) (i : Nat) (st : ScanState) :
    scanLoop sp args f i [] st = some st := rfl

theorem scanLoop_cons (sp : List Char → Arg → List Char) (args : List Arg)
    (f : List Char) (i : Nat) (v : Char) (rest : List Char) (st : ScanState) :
    scanLoop sp args f i (v :: rest) st =
      match scanChar sp args f i v st with
      | none => none
      | some st1 => scanLoop sp args f (i + 1) rest st1 := rfl

theorem scanLoop_append (sp : List Char → Arg → List Char) (args : List Arg)
    (f : List Char) :
    ∀ (xs ys : List Char) (i : Nat) (st : ScanState),
      scanLoop sp args f i (xs ++ ys) st
        = (scanLoop sp args f i xs st).bind
            (fun st1 => scanLoop sp args f (i + xs.length) ys st1) := by
  intro xs
  induction xs with
  | nil =>
    intro ys i st
    simp [scanLoop]
  | cons x xs ih =>
    intro ys i st
    rw [List.cons_append, scanLoop_cons, scanLoop_cons]
    cases h : scanChar sp args f i x st with
    | none => simp
    | some st1 =>
      simp only [Option.some_bind]
      rw [ih]
      have hlen : i + 1 + xs.length = i + (x :: xs).length := by
        simp
        omega
      rw [hlen]

theorem scanChar_verb {sp : List Char → Arg → List Char} {args : List Arg}
    {f : List Char} {i : Nat} {v : Char} {st : ScanState} {a : Arg}
    (h1 : st.tag = true) (h2 : isVerb v = true) (ha : args[st.n]? = some a) :
    scanChar sp args f i v st
      = some { st with
                 escape := false,
                 out := st.out ++ sp (slice f st.tagPos (i + 1)) a,
                 size := st.size + (sp (slice f st.tagPos (i + 1)) a).length,
                 n := st.n + 1, last := i + 1, tag := false } := by
  unfold scanChar
  rw [h1, h2, ha]
  simp

theorem scanChar_inTag_skip {sp : List Char → Arg → List Char}
    {args : List Arg} {f : List Char} {i : Nat} {v : Char} {st : ScanState}
    (h1 : st.tag = true) (h2 : isVerb v = false) (h3 : ¬(v = ESCAPE)) :
    scanChar sp args f i v st = some st := by
  unfold scanChar
  rw [h1, h2]
  simp [h3]

theorem scanChar_open {sp : List Char → Arg → List Char} {args : List Arg}
    {f : List Char} {i : Nat} {st : ScanState}
    (h1 : st.tag = false) (h2 : st.escape = false) :
    scanChar sp args f i PLACEHOLDER st
      = some { st with
                 tag := true, tagPos := i,
                 out := st.out ++ slice f st.last i,
                 size := st.size + (slice f st.last i).length,
                 escape := false } := by
  unfold scanChar
  rw [h1]
  simp [h2]

theorem scanChar_outside_skip {sp : List Char → Arg → List Char}
    {args : List Arg} {f : List Char} {i : Nat} {v : Char} {st : ScanState}
    (h1 : st.tag = false) (h2 : ¬(v = PLACEHOLDER)) :
    scanChar sp args f i v st = some st := by
  unfold scanChar
  rw [h1]
  simp [h2]

theorem scanLoop_inTag_noop (sp : List Char → Arg → List Char)
    (args : List Arg) (f : List Char) :
    ∀ (cs : List Char) (i : Nat) (st : ScanState), st.tag = true →
      (∀ c ∈ cs, isVerb c = false ∧ ¬(c = ESCAPE)) →
      scanLoop sp args f i cs st = some st := by
  intro cs
  induction cs with
  | nil => intro i st _ _; rfl
  | cons c cs ih =>
    intro i st htag hcs
    rw [scanLoop_cons,
        scanChar_inTag_skip htag (hcs c (by simp)).1 (hcs c (by simp)).2]
    exact ih (i + 1) st htag (fun x hx => hcs x (by simp [hx]))

theorem scanLoop_outside_noop (sp : List Char → Arg → List Char)
    (args : List Arg) (f : List Char) :
    ∀ (cs : List Char) (i : Nat) (st : ScanState), st.tag = false →
      (∀ c ∈ cs, ¬(c = PLACEHOLDER)) →
      scanLoop sp args f i cs st = some st := by
  intro cs
  induction cs with
  | nil => intro i st _ _; rfl
  | cons c cs ih =>
    intro i st htag hcs
    rw [scanLoop_cons, scanChar_outside_skip htag (hcs c (by simp))]
    exact ih (i + 1) st htag (fun x hx => hcs x (by simp [hx]))

theorem scanChar_size {sp : List Char → Arg → List Char} {args : List Arg}
    {f : List Char} {i : Nat} {v : Char} {st st1 : ScanState}
    (h : scanChar sp args f i v st = some st1) :
    st1.size + st.out.length = st.size + st1.out.length := by
  unfold scanChar at h
  split at h
  · split at h
    · split at h
      · cases h
      · injection h with h
        subst h
        simp
        omega
    · split at h
      · split at h
        · injection h with h
          subst h
          simp
          omega
        · injection h with h
          subst h
          simp
      · injection h with h
        subst h
        rfl
  · split at h
    · injection h with h
      subst h
      simp
      omega
    · injection h with h
      subst h
      rfl

theorem scanLoop_size {sp : List Char → Arg → List Char} {args : List Arg}
    {f : List Char} :
    ∀ {cs : List Char} {i : Nat} {st st1 : ScanState},
      scanLoop sp args f i cs st = some st1 →
      st1.size + st.out.length = st.size + st1.out.length := by
  intro cs
  induction cs with
  | nil =>
    intro i st st1 h
    injection h with h
    subst h
    rfl
  | cons c cs ih =>
    intro i st st1 h
    rw [scanLoop_cons] at h
    cases hc : scanChar sp args f i c st with
    | none => rw [hc] at h; cases h
    | some st2 =>
      rw [hc] at h
      have e1 := scanChar_size hc
      have e2 := ih h
      omega

theorem scanChar_inv {sp : List Char → Arg → List Char} {args : List Arg}
    {f : List Char} {i : Nat} {v : Char} {st st1 : ScanState}
    (h0 : st.tag = false → st.escape = false)
    (h : scanChar sp args f i v st = some st1) :
    st1.tag = false → st1.escape = false := by
  unfold scanChar at h
  split at h
  · split at h
    · split at h
      · cases h
      · injection h with h
        subst h
        intro _
        rfl
    · split at h
      · split at h
        · injection h with h
          subst h
          intro _
          rfl
        · injection h with h
          subst h
          simp_all
      · injection h with h
        subst h
        exact h0
  · split at h
    · injection h with h
      subst h
      intro _
      rfl
    · injection h with h
      subst h
      exact h0

theorem scanLoop_inv {sp : List Char → Arg → List Char} {args : List Arg}
    {f : List Char} :
    ∀ {cs : List Char} {i : Nat} {st st1 : ScanState},
      (st.tag = false → st.escape = false) →
      scanLoop sp args f i cs st = some st1 →
      st1.tag = false → st1.escape = false := by
  intro cs
  induction cs with
  | nil =>
    intro i st st1 h0 h
    injection h with h
    subst h
    exact h0
  | cons c cs ih =>
    intro i st st1 h0 h
    rw [scanLoop_cons] at h
    cases hc : scanChar sp args f i c st with
    | none => rw [hc] at h; cases h
    | some st2 =>
      rw [hc] at h
      exact ih (scanChar_inv h0 hc) h

/-! ### Helper lemmas about the buffered writer and the BLog operations -/

theorem bwFlush_ok (w : BufWriter) (c : List Char) :
    bwFlush w ⟨c, false⟩ = (⟨[], w.cap⟩, ⟨c ++ w.buf, false⟩, none) := by
  unfold bwFlush sinkWrite
  by_cases hb : w.buf.isEmpty
  · rw [if_pos hb]
    have hnil : w.buf = [] := by simpa using hb
    rcases w with ⟨buf, cap⟩
    simp_all
  · rw [if_neg hb]
    simp

theorem bwWrite_ok (w : BufWriter) (c s : List Char) :
    ∃ w1 c1, bwWrite w ⟨c, false⟩ s = (w1, ⟨c1, false⟩, none) ∧
      c1 ++ w1.buf = c ++ w.buf ++ s ∧ w1.cap = w.cap := by
  unfold bwWrite
  by_cases hfit : w.buf.length + s.length ≤ w.cap
  · rw [if_pos hfit]
    exact ⟨_, _, rfl, by simp, rfl⟩
  · rw [if_neg hfit, bwFlush_ok]
    by_cases hs : s.length ≤ w.cap
    · simp only [hs, if_true]
      exact ⟨_, _, rfl, by simp, rfl⟩
    · simp only [hs, if_false]
      unfold sinkWrite
      simp only [if_neg]
      exact ⟨_, _, rfl, by simp, rfl⟩

theorem write_ok (lvl0 : Level) (c : List Char) (w : BufWriter)
    (tf : List Char) (lvl : Level) (m : List Char) :
    ∃ w1 c1, BLog.write ⟨lvl0, ⟨c, false⟩, some w⟩ tf lvl m
        = some (⟨lvl0, ⟨c1, false⟩, some w1⟩,
                tf.length + lvl.prefixStr.length + m.length + 1) ∧
      c1 ++ w1.buf = c ++ w.buf ++ (tf ++ lvl.prefixStr ++ m ++ [EOL]) ∧
      w1.cap = w.cap := by
  obtain ⟨wa, ca, ha, hca, hcapa⟩ := bwWrite_ok w c tf
  obtain ⟨wb, cb, hb, hcb, hcapb⟩ := bwWrite_ok wa ca lvl.prefixStr
  obtain ⟨wc, cc, hc, hcc, hcapc⟩ := bwWrite_ok wb cb m
  obtain ⟨wd, cd, hd, hcd, hcapd⟩ := bwWrite_ok wc cc [EOL]
  refine ⟨wd, cd, ?_, ?_, ?_⟩
  · unfold BLog.write
    dsimp only
    rw [ha]
    dsimp only
    rw [hb]
    dsimp only
    rw [hc]
    dsimp only
    rw [hd]
  · rw [hcd, hcc, hcb, hca]
    simp [List.append_assoc]
  · rw [hcapd, hcapc, hcapb, hcapa]

theorem runWrites_ok (tf : List Char) :
    ∀ (msgs : List (Level × List Char)) (lvl0 : Level) (c : List Char)
      (w : BufWriter),
      ∃ w1 c1, runWrites tf ⟨lvl0, ⟨c, false⟩, some w⟩ msgs
          = some ⟨lvl0, ⟨c1, false⟩, some w1⟩ ∧
        c1 ++ w1.buf = c ++ w.buf ++ encodeMsgs tf msgs ∧ w1.cap = w.cap := by
  intro msgs
  induction msgs with
  | nil =>
    intro lvl0 c w
    exact ⟨w, c, rfl, by simp [encodeMsgs], rfl⟩
  | cons m ms ih =>
    intro lvl0 c w
    obtain ⟨wa, ca, ha, hca, hcapa⟩ := write_ok lvl0 c w tf m.1 m.2
    obtain ⟨w1, c1, h1, hc1, hcap1⟩ := ih lvl0 ca wa
    refine ⟨w1, c1, ?_, ?_, ?_⟩
    · unfold runWrites
      rw [ha]
      exact h1
    · rw [hc1, hca]
      simp [encodeMsgs, List.append_assoc]
    · rw [hcap1, hcapa]

/-! ### Claim theorems: error handling and buffer lifecycle -/

/-- C2: the claim asks that an argument count different from the
placeholder count raise a reported FormatError and append nothing; the
code does neither.  On underflow the scan evaluates args[n] out of range
(a runtime fault, modelled by `none`) with the timestamp and prefix
already emitted; with surplus arguments it appends normally and silently
ignores the extras. -/
theorem writef_arg_mismatch_behavior :
    writefRun sprintfModel ("T ".toList) Level.info ("%d".toList) [] = none ∧
    writefRun sprintfModel ("T ".toList) Level.info ("a".toList) [Arg.int 3]
      = some (("T [INFO] a" ++ "\n").toList, 11) := by
  constructor
  · rfl
  · rfl

/-- C3: for every level and every literal message, write appends exactly
timestamp ++ prefix(level) ++ message ++ terminator, verbatim, to the
buffered stream — no placeholder interpretation, no argument
consumption — and returns the total length of those four parts. -/
theorem write_appends_verbatim (b : BLog) (tf : List Char) (lvl : Level)
    (m : List Char) (w : BufWriter) (hw : b.writer = some w)
    (hok : b.sink.fail = false) :
    ∃ b1, BLog.write b tf lvl m
        = some (b1, (tf ++ lvl.prefixStr ++ m ++ [EOL]).length) ∧
      streamBytes b1 = streamBytes b ++ (tf ++ lvl.prefixStr ++ m ++ [EOL]) := by
  rcases b with ⟨lvl0, ⟨c, fl⟩, wr⟩
  simp only at hw hok
  subst hw
  subst hok
  obtain ⟨w1, c1, he, hc, _⟩ := write_ok lvl0 c w tf lvl m
  have hlen : (tf ++ lvl.prefixStr ++ m ++ [EOL]).length
      = tf.length + lvl.prefixStr.length + m.length + 1 := by
    simp
    omega
  refine ⟨⟨lvl0, ⟨c1, false⟩, some w1⟩, ?_, ?_⟩
  · rw [hlen]
    exact he
  · unfold streamBytes
    dsimp only
    exact hc

/-- Witness for C3 at a concrete writer, timestamp and message. -/
theorem write_appends_verbatim_witness :
    ∃ b1, BLog.write ⟨Level.info, ⟨[], false⟩, some ⟨[], 32⟩⟩ ("T ".toList)
          Level.info ("hi".toList)
        = some (b1, (("T ".toList) ++ Level.info.prefixStr ++ ("hi".toList)
                      ++ [EOL]).length) ∧
      streamBytes b1
        = streamBytes ⟨Level.info, ⟨[], false⟩, some ⟨[], 32⟩⟩
            ++ (("T ".toList) ++ Level.info.prefixStr ++ ("hi".toList) ++ [EOL]) :=
  write_appends_verbatim _ _ _ _ _ rfl rfl

/-- C4: a destination swap flushes the whole buffer to the old sink,
rebinds to the new sink with the buffer capacity preserved, and for any
writes before and after the swap the old destination ends up with exactly
the pre-swap bytes and the new destination with exactly the post-swap
bytes: nothing lost, nothing duplicated, nothing crossed over. -/
theorem resetFile_swap_conserves (tf : List Char) (cap : Nat)
    (d0 d1 : List Char) (msgs1 msgs2 : List (Level × List Char)) :
    ∃ b1 b2 old b3 b4 w2,
      runWrites tf ⟨Level.debug, ⟨d0, false⟩, some ⟨[], cap⟩⟩ msgs1 = some b1 ∧
      BLog.resetFile b1 ⟨d1, false⟩ = some (b2, old, none) ∧
      b2.writer = some w2 ∧ w2.cap = cap ∧ w2.buf = [] ∧
      old.contents = d0 ++ encodeMsgs tf msgs1 ∧
      runWrites tf b2 msgs2 = some b3 ∧
      BLog.flush b3 = some b4 ∧
      b4.sink.contents = d1 ++ encodeMsgs tf msgs2 := by
  obtain ⟨w1, c1, h1, hc1, hcap1⟩ := runWrites_ok tf msgs1 Level.debug d0 ⟨[], cap⟩
  have hreset : BLog.resetFile ⟨Level.debug, ⟨c1, false⟩, some w1⟩ ⟨d1, false⟩
      = some (⟨Level.debug, ⟨d1, false⟩, some ⟨[], w1.cap⟩⟩,
              ⟨c1 ++ w1.buf, false⟩, none) := by
    unfold BLog.resetFile
    dsimp only
    rw [bwFlush_ok]
  obtain ⟨w3, c3, h3, hc3, hcap3⟩ := runWrites_ok tf msgs2 Level.debug d1 ⟨[], w1.cap⟩
  have hflush : BLog.flush ⟨Level.debug, ⟨c3, false⟩, some w3⟩
      = some ⟨Level.debug, ⟨c3 ++ w3.buf, false⟩, some ⟨[], w3.cap⟩⟩ := by
    unfold BLog.flush
    dsimp only
    rw [bwFlush_ok]
  refine ⟨_, _, _, _, _, ⟨[], w1.cap⟩, h1, hreset, rfl, hcap1, rfl, ?_, h3,
          hflush, ?_⟩
  · dsimp only
    rw [hc1]
    simp
  · dsimp only
    rw [hc3]
    simp

/-- C5: the claim asks that operations after close yield an explicit
error result, and that close itself flushes.  The second part holds: a
message written just before Close is flushed exactly once.  The first
does not: Close stores nil into the writer, and every subsequent write,
formatted write, flush, swap, or second close dereferences that nil
pointer — a runtime fault (modelled by `none`), not an error result. -/
theorem close_flushes_then_faults :
    BLog.write (NewBLog ⟨[], false⟩ 64) ("T ".toList) Level.debug
        ("boot complete".toList)
      = some (⟨Level.debug, ⟨[], false⟩,
              some ⟨("T [DEBUG] boot complete" ++ "\n").toList, 64⟩⟩, 24) ∧
    BLog.Close ⟨Level.debug, ⟨[], false⟩,
        some ⟨("T [DEBUG] boot complete" ++ "\n").toList, 64⟩⟩
      = some ⟨Level.debug,
              ⟨("T [DEBUG] boot complete" ++ "\n").toList, false⟩, none⟩ ∧
    BLog.write ⟨Level.debug, ⟨("T [DEBUG] boot complete" ++ "\n").toList, false⟩,
        none⟩ ("T ".toList) Level.debug ("x".toList) = none ∧
    BLog.writef ⟨Level.debug, ⟨("T [DEBUG] boot complete" ++ "\n").toList, false⟩,
        none⟩ sprintfModel ("T ".toList) Level.debug ("x".toList) [] = none ∧
    BLog.flush ⟨Level.debug, ⟨("T [DEBUG] boot complete" ++ "\n").toList, false⟩,
        none⟩ = none ∧
    BLog.resetFile ⟨Level.debug,
        ⟨("T [DEBUG] boot complete" ++ "\n").toList, false⟩, none⟩ ⟨[], false⟩
      = none ∧
    BLog.Close ⟨Level.debug, ⟨("T [DEBUG] boot complete" ++ "\n").toList, false⟩,
        none⟩ = none := by
  refine ⟨?_, rfl, rfl, rfl, rfl, rfl, rfl⟩
  rfl

/-- C6: flush is idempotent — flushing twice from any writer state gives
exactly the state one flush gives (in particular identical destination
contents), including the fault case after Close and the case of a sink
that rejects the flush. -/
theorem flush_idempotent (b : BLog) :
    (BLog.flush b).bind BLog.flush = BLog.flush b := by
  rcases b with ⟨lvl, ⟨c, fl⟩, wr⟩
  rcases wr with _ | ⟨buf, cap⟩
  · rfl
  · rcases buf with _ | ⟨x, buf⟩
    · rfl
    · cases fl
      · rfl
      · rfl

/-- C7 counterexample: during a destination swap on a failing sink the
flush reports a sink I/O error, yet resetFile returns nil — the error is
silently discarded, not propagated to the caller. -/
theorem resetFile_swallows_flush_error :
    (bwFlush ⟨("x").toList, 16⟩ ⟨[], true⟩).2.2 = some "sink write error" ∧
    BLog.resetFile ⟨Level.debug, ⟨[], true⟩, some ⟨("x").toList, 16⟩⟩ ⟨[], false⟩
      = some (⟨Level.debug, ⟨[], false⟩, some ⟨[], 16⟩⟩, ⟨[], true⟩, none) := by
  constructor
  · rfl
  · rfl

/-- C7 amended: sink I/O errors during flush, swap and close are
discarded at this layer — flush and Close expose no error result at all,
and every resetFile call that returns at all returns a nil error,
whatever the flush reported. -/
theorem resetFile_error_always_none (b : BLog) (nd : Sink)
    (r : BLog × Sink × Option String) (h : BLog.resetFile b nd = some r) :
    r.2.2 = none := by
  rcases hb : b.writer with _ | w
  · unfold BLog.resetFile at h
    rw [hb] at h
    cases h
  · unfold BLog.resetFile at h
    rw [hb] at h
    dsimp only at h
    rcases hf : bwFlush w b.sink with ⟨w1, sk1, e⟩
    rw [hf] at h
    dsimp only at h
    injection h with h
    subst h
    rfl

/-- Witness for the amended C7 at a concrete writer and sink. -/
theorem resetFile_error_always_none_witness :
    BLog.resetFile ⟨Level.debug, ⟨[], false⟩, some ⟨[], 8⟩⟩ ⟨[], false⟩
      = some (⟨Level.debug, ⟨[], false⟩, some ⟨[], 8⟩⟩, ⟨[], false⟩, none) ∧
    ((⟨Level.debug, ⟨[], false⟩, some ⟨[], 8⟩⟩, ⟨[], false⟩,
      (none : Option String)) : BLog × Sink × Option String).2.2 = none :=
  ⟨rfl, resetFile_error_always_none ⟨Level.debug, ⟨[], false⟩, some ⟨[], 8⟩⟩
    ⟨[], false⟩ _ rfl⟩

/-! ### The scan of a well-formed token run -/

theorem flatten_nil : flatten [] = [] := rfl

theorem flatten_cons (t : Tok) (ts : List Tok) :
    flatten (t :: ts) = t.chars ++ flatten ts := by
  simp [flatten]

theorem scanLoop_toks (sp : List Char → Arg → List Char) (args : List Arg)
    (f : List Char) :
    ∀ (ts : List Tok) (pre post : List Char) (st : ScanState)
      (body : List Char),
      f = pre ++ (flatten ts ++ post) →
      (∀ t ∈ ts, Tok.goodb t = true) →
      st.tag = false → st.escape = false → st.last ≤ pre.length →
      renderToks sp args st.n ts = some body →
      ∃ st1,
        scanLoop sp args f pre.length (flatten ts) st = some st1 ∧
        st1.tag = false ∧ st1.escape = false ∧
        st1.last = lastAfter st.last pre.length ts ∧
        st1.last ≤ pre.length + (flatten ts).length ∧
        st1.n = st.n + countPh ts ∧
        st1.out ++ slice f st1.last (pre.length + (flatten ts).length)
          = st.out ++ slice f st.last pre.length ++ body := by
  intro ts
  induction ts with
  | nil =>
    intro pre post st body hf hgood htag hesc hlast hrender
    have hb : [] = body := by
      injection hrender
    subst hb
    refine ⟨st, ?_, htag, hesc, rfl, ?_, ?_, ?_⟩
    · rw [flatten_nil, scanLoop_nil]
    · rw [flatten_nil]
      simpa using hlast
    · simp [countPh]
    · rw [flatten_nil]
      simp
  | cons t ts ih =>
    intro pre post st body hf hgood htag hesc hlast hrender
    cases t with
    | lit c =>
      have hc : ¬(c = PLACEHOLDER) := by
        have hg := hgood (Tok.lit c) (by simp)
        simp [Tok.goodb] at hg
        exact hg
      have hflat : flatten (Tok.lit c :: ts) = c :: flatten ts := by
        rw [flatten_cons]
        rfl
      have hrc : renderToks sp args st.n (Tok.lit c :: ts)
          = (renderToks sp args st.n ts).map (fun b => c :: b) := rfl
      rw [hrc] at hrender
      obtain ⟨body1, hr1, hbody⟩ := Option.map_eq_some'.mp hrender
      subst hbody
      have hf' : f = (pre ++ [c]) ++ (flatten ts ++ post) := by
        rw [hf, hflat]
        simp
      obtain ⟨st1, hloop, h1, h2, h3, h4, h5, h6⟩ :=
        ih (pre ++ [c]) post st body1 hf'
          (fun t ht => hgood t (by simp [ht])) htag hesc
          (by simp; omega) hr1
      have hpl : (pre ++ [c]).length = pre.length + 1 := by simp
      rw [hpl] at hloop h3 h4 h6
      have hget : f[pre.length]? = some c := by
        rw [hf, hflat, List.cons_append]
        exact getElem?_append_cons pre (flatten ts ++ post) c
      refine ⟨st1, ?_, h1, h2, ?_, ?_, ?_, ?_⟩
      · rw [hflat, scanLoop_cons, scanChar_outside_skip htag hc]
        dsimp only
        exact hloop
      · exact h3
      · rw [hflat]
        simp only [List.length_cons]
        omega
      · exact h5
      · rw [hflat]
        have hidx : pre.length + (c :: flatten ts).length
            = pre.length + 1 + (flatten ts).length := by
          simp only [List.length_cons]
          omega
        rw [hidx, h6, slice_snoc hlast hget]
        simp
    | ph flags vb =>
      have hg := hgood (Tok.ph flags vb) (by simp)
      simp only [Tok.goodb, Bool.and_eq_true, List.all_eq_true] at hg
      have hverb : isVerb vb = true := hg.1
      have hflags : ∀ x ∈ flags, isVerb x = false ∧ ¬(x = ESCAPE) := by
        intro x hx
        have := hg.2 x hx
        simp only [Bool.and_eq_true, Bool.not_eq_true'] at this
        refine ⟨this.1, ?_⟩
        have h2 := this.2
        simp at h2
        exact h2
      have hflat : flatten (Tok.ph flags vb :: ts)
          = PLACEHOLDER :: ((flags ++ [vb]) ++ flatten ts) := by
        rw [flatten_cons]
        rfl
      -- the render hypothesis forces an argument and a tail body
      have hrp : renderToks sp args st.n (Tok.ph flags vb :: ts)
          = match args[st.n]? with
            | none => none
            | some a => (renderToks sp args (st.n + 1) ts).map
                (fun b => phRender sp flags vb a ++ b) := rfl
      rw [hrp] at hrender
      rcases hargs : args[st.n]? with _ | a
      · rw [hargs] at hrender
        cases hrender
      rw [hargs] at hrender
      dsimp only at hrender
      obtain ⟨body1, hr1, hbody⟩ := Option.map_eq_some'.mp hrender
      subst hbody
      -- the intermediate states
      have h1 : scanChar sp args f pre.length PLACEHOLDER st
          = some { st with
                     tag := true, tagPos := pre.length,
                     out := st.out ++ slice f st.last pre.length,
                     size := st.size + (slice f st.last pre.length).length,
                     escape := false } :=
        scanChar_open htag hesc
      have h2 : scanLoop sp args f (pre.length + 1) flags
          { st with
              tag := true, tagPos := pre.length,
              out := st.out ++ slice f st.last pre.length,
              size := st.size + (slice f st.last pre.length).length,
              escape := false }
          = some { st with
                     tag := true, tagPos := pre.length,
                     out := st.out ++ slice f st.last pre.length,
                     size := st.size + (slice f st.last pre.length).length,
                     escape := false } :=
        scanLoop_inTag_noop sp args f flags (pre.length + 1) _ rfl hflags
      have hsl : slice f pre.length (pre.length + (flags.length + 2))
          = PLACEHOLDER :: (flags ++ [vb]) := by
        have hm : f = pre ++ ((PLACEHOLDER :: (flags ++ [vb])) ++ (flatten ts ++ post)) := by
          rw [hf, hflat]
          simp
        have hlen2 : (PLACEHOLDER :: (flags ++ [vb])).length = flags.length + 2 := by
          simp
        rw [hm]
        have := slice_mid pre (PLACEHOLDER :: (flags ++ [vb])) (flatten ts ++ post)
        rw [hlen2] at this
        exact this
      have hividx : pre.length + 1 + flags.length + 1
          = pre.length + (flags.length + 2) := by
        omega
      have h3 : scanChar sp args f (pre.length + 1 + flags.length) vb
          { st with
              tag := true, tagPos := pre.length,
              out := st.out ++ slice f st.last pre.length,
              size := st.size + (slice f st.last pre.length).length,
              escape := false }
          = some { st with
                     tag := false, tagPos := pre.length, escape := false,
                     n := st.n + 1, last := pre.length + (flags.length + 2),
                     out := (st.out ++ slice f st.last pre.length)
                              ++ phRender sp flags vb a,
                     size := (st.size + (slice f st.last pre.length).length)
                              + (phRender sp flags vb a).length } := by
        have hv := @scanChar_verb sp args f (pre.length + 1 + flags.length) vb
          { st with
              tag := true, tagPos := pre.length,
              out := st.out ++ slice f st.last pre.length,
              size := st.size + (slice f st.last pre.length).length,
              escape := false }
          a rfl hverb hargs
        rw [hv]
        dsimp only
        rw [hividx, hsl]
        rfl
      -- chain the three steps
      have hchain : scanLoop sp args f pre.length
          (flatten (Tok.ph flags vb :: ts)) st
          = scanLoop sp args f (pre.length + 1 + flags.length + 1) (flatten ts)
              { st with
                  tag := false, tagPos := pre.length, escape := false,
                  n := st.n + 1, last := pre.length + (flags.length + 2),
                  out := (st.out ++ slice f st.last pre.length)
                           ++ phRender sp flags vb a,
                  size := (st.size + (slice f st.last pre.length).length)
                           + (phRender sp flags vb a).length } := by
        rw [hflat, scanLoop_cons, h1]
        dsimp only
        rw [List.append_assoc, scanLoop_append, h2]
        simp only [Option.some_bind]
        rw [List.singleton_append, scanLoop_cons, h3]
      -- apply the induction hypothesis after the placeholder
      have hf'' : f = (pre ++ (PLACEHOLDER :: (flags ++ [vb])))
          ++ (flatten ts ++ post) := by
        rw [hf, hflat]
        simp
      have hpre' : (pre ++ (PLACEHOLDER :: (flags ++ [vb]))).length
          = pre.length + (flags.length + 2) := by
        simp
      obtain ⟨st1, hloop, k1, k2, k3, k4, k5, k6⟩ :=
        ih (pre ++ (PLACEHOLDER :: (flags ++ [vb]))) post
          { st with
              tag := false, tagPos := pre.length, escape := false,
              n := st.n + 1, last := pre.length + (flags.length + 2),
              out := (st.out ++ slice f st.last pre.length)
                       ++ phRender sp flags vb a,
              size := (st.size + (slice f st.last pre.length).length)
                       + (phRender sp flags vb a).length }
          body1 hf'' (fun t ht => hgood t (by simp [ht])) rfl rfl
          (by rw [hpre']) hr1
      rw [hpre'] at hloop k3 k4 k6
      have hflatlen : (flatten (Tok.ph flags vb :: ts)).length
          = (flags.length + 2) + (flatten ts).length := by
        rw [hflat]
        simp
        omega
      refine ⟨st1, ?_, k1, k2, ?_, ?_, ?_, ?_⟩
      · rw [hchain, hividx]
        exact hloop
      · rw [k3]
        rfl
      · rw [hflatlen]
        omega
      · rw [k5]
        simp only [countPh]
        omega
      · have hidx2 : pre.length + (flatten (Tok.ph flags vb :: ts)).length
            = pre.length + (flags.length + 2) + (flatten ts).length := by
          rw [hflatlen]
          omega
        rw [hidx2, k6, slice_self]
        simp [List.append_assoc]

theorem lastAfter_end :
    ∀ (a : List Tok) (flags : List Char) (vb : Char) (l0 i0 : Nat),
      lastAfter l0 i0 (a ++ [Tok.ph flags vb])
        = i0 + (flatten (a ++ [Tok.ph flags vb])).length := by
  intro a
  induction a with
  | nil =>
    intro flags vb l0 i0
    simp [lastAfter, flatten, Tok.chars]
  | cons t a ih =>
    intro flags vb l0 i0
    cases t with
    | lit c =>
      rw [List.cons_append]
      show lastAfter l0 (i0 + 1) (a ++ [Tok.ph flags vb]) = _
      rw [ih, flatten_cons]
      simp [Tok.chars]
      omega
    | ph fl2 v2 =>
      rw [List.cons_append]
      show lastAfter (i0 + (fl2.length + 2)) (i0 + (fl2.length + 2))
          (a ++ [Tok.ph flags vb]) = _
      rw [ih, flatten_cons]
      simp [Tok.chars]
      omega

/-! ### Claim theorems: the placeholder scanner -/

/-- C1: for every format string made of literal characters and complete
placeholders, with exactly one argument per placeholder, writef appends
timestamp ++ level-prefix ++ rendered-body ++ terminator, where the body
renders each placeholder via its verb against the corresponding
positional argument in left-to-right order and passes every literal
character through unchanged. -/
theorem writef_renders_placeholders (sp : List Char → Arg → List Char)
    (tf : List Char) (lvl : Level) (ts : List Tok) (args : List Arg)
    (body : List Char)
    (hgood : ∀ t ∈ ts, Tok.goodb t = true)
    (hlen : args.length = countPh ts)
    (hbody : renderToks sp args 0 ts = some body) :
    writefRun sp tf lvl (flatten ts) args
      = some (tf ++ lvl.prefixStr ++ body ++ [EOL],
              tf.length + lvl.prefixStr.length + body.length + 1) := by
  obtain ⟨st1, hloop, h1, h2, h3, h4, h6⟩ :=
    scanLoop_toks sp args (flatten ts) ts [] []
      (scanInit (tf.length + lvl.prefixStr.length)) body (by simp) hgood
      rfl rfl (by simp [scanInit]) hbody
  obtain ⟨h5, h6⟩ := h6
  simp only [List.length_nil] at hloop
  have h6' : st1.out ++ slice (flatten ts) st1.last (flatten ts).length
      = body := by
    simpa [scanInit, slice_self] using h6
  have hbytes : st1.out ++ (flatten ts).drop st1.last = body := by
    rw [← slice_length_all]
    exact h6'
  have hsz := scanLoop_size hloop
  simp [scanInit] at hsz
  have hlen2 : st1.out.length + ((flatten ts).drop st1.last).length
      = body.length := by
    have := congrArg List.length hbytes
    simpa using this
  unfold writefRun
  rw [hloop]
  dsimp only
  have e1 : tf ++ lvl.prefixStr ++ st1.out ++ (flatten ts).drop st1.last
        ++ [EOL]
      = tf ++ lvl.prefixStr ++ body ++ [EOL] := by
    rw [← hbytes]
    simp [List.append_assoc]
  have e2 : st1.size + ((flatten ts).drop st1.last).length + 1
      = tf.length + lvl.prefixStr.length + body.length + 1 := by
    omega
  rw [e1, e2]

/-- Witness for C1 at the spec's own example: format
"hello %s, you are %d" with arguments "world" and 3. -/
theorem writef_renders_placeholders_witness :
    writefRun sprintfModel ("T ".toList) Level.info
        (flatten [Tok.lit 'h', Tok.lit 'e', Tok.lit 'l', Tok.lit 'l',
                  Tok.lit 'o', Tok.lit ' ', Tok.ph [] 's', Tok.lit ',',
                  Tok.lit ' ', Tok.lit 'y', Tok.lit 'o', Tok.lit 'u',
                  Tok.lit ' ', Tok.lit 'a', Tok.lit 'r', Tok.lit 'e',
                  Tok.lit ' ', Tok.ph [] 'd'])
        [Arg.str ("world".toList), Arg.int 3]
      = some (("T ".toList) ++ Level.info.prefixStr
                ++ ("hello world, you are 3".toList) ++ [EOL],
              ("T ".toList).length + (Level.info.prefixStr).length
                + ("hello world, you are 3".toList).length + 1) :=
  writef_renders_placeholders sprintfModel ("T ".toList) Level.info
    [Tok.lit 'h', Tok.lit 'e', Tok.lit 'l', Tok.lit 'l', Tok.lit 'o',
     Tok.lit ' ', Tok.ph [] 's', Tok.lit ',', Tok.lit ' ', Tok.lit 'y',
     Tok.lit 'o', Tok.lit 'u', Tok.lit ' ', Tok.lit 'a', Tok.lit 'r',
     Tok.lit 'e', Tok.lit ' ', Tok.ph [] 'd']
    [Arg.str ("world".toList), Arg.int 3] ("hello world, you are 3".toList)
    (by decide) (by decide) (by decide)

/-- C8: whenever a formatted write returns, the count it returns equals
exactly the number of bytes it appended to the buffered stream: timestamp
plus prefix plus rendered body plus the one terminator byte. -/
theorem writef_count_eq_bytes (sp : List Char → Arg → List Char)
    (tf : List Char) (lvl : Level) (format : List Char) (args : List Arg)
    (bytes : List Char) (sz : Nat)
    (h : writefRun sp tf lvl format args = some (bytes, sz)) :
    sz = bytes.length := by
  unfold writefRun at h
  rcases hl : scanLoop sp args format 0 format
      (scanInit (tf.length + lvl.prefixStr.length)) with _ | st1
  · rw [hl] at h
    cases h
  · rw [hl] at h
    dsimp only at h
    injection h with h
    rw [Prod.mk.injEq] at h
    obtain ⟨hb, hs⟩ := h
    have hsz := scanLoop_size hl
    simp [scanInit] at hsz
    subst hb
    subst hs
    simp [List.length_append]
    omega

/-- Witness for C8 at a concrete formatted write. -/
theorem writef_count_eq_bytes_witness :
    writefRun sprintfModel [] Level.info ("a%d".toList) [Arg.int 5]
      = some (("[INFO] a5" ++ "\n").toList, 10) ∧
    (10 : Nat) = (("[INFO] a5" ++ "\n").toList).length :=
  ⟨rfl, writef_count_eq_bytes sprintfModel [] Level.info ("a%d".toList)
    [Arg.int 5] (("[INFO] a5" ++ "\n").toList) 10 rfl⟩

/-- C9: throughout the writef scan, the escape-pending flag can be set
only while the scanner is inside a placeholder: at any loop position
where the scanner is outside a placeholder the flag is false, and hence a
percent character there always opens a new placeholder (an outer-scope
backslash-percent is never recognised as an escaped percent). -/
theorem escape_only_inside_placeholder (sp : List Char → Arg → List Char)
    (args : List Arg) (format : List Char) (sz0 i : Nat) (st1 : ScanState)
    (h : scanLoop sp args format 0 (format.take i) (scanInit sz0) = some st1)
    (htag : st1.tag = false) :
    st1.escape = false ∧
    ∀ (j : Nat) (st2 : ScanState),
      scanChar sp args format j PLACEHOLDER st1 = some st2 →
      st2.tag = true := by
  have hesc : st1.escape = false := scanLoop_inv (fun _ => rfl) h htag
  refine ⟨hesc, ?_⟩
  intro j st2 h2
  rw [scanChar_open htag hesc] at h2
  injection h2 with h2
  subst h2
  rfl

/-- Witness for C9: after the two literal characters of "ab%d" the
scanner is outside a placeholder with the escape flag clear. -/
theorem escape_only_inside_placeholder_witness :
    (scanInit 0).escape = false ∧
    scanLoop sprintfModel [] ("ab%d".toList) 0 (("ab%d".toList).take 2)
        (scanInit 0) = some (scanInit 0) :=
  ⟨(escape_only_inside_placeholder sprintfModel [] ("ab%d".toList) 0 2
      (scanInit 0) rfl rfl).1, rfl⟩

/-- C10: a format that ends inside an unterminated placeholder (its
tail is a complete-token run, then a literal run, then a percent never
followed by a verb) consumes no argument for that placeholder, and the
literal run preceding the percent is appended twice — once when the
placeholder opened and again in the trailing append, because `last` only
advances when a verb completes a placeholder — while the returned count
still equals the bytes actually appended. -/
theorem writef_unterminated_placeholder (sp : List Char → Arg → List Char)
    (tf : List Char) (lvl : Level) (ts : List Tok) (r q : List Char)
    (args : List Arg) (body : List Char)
    (hgood : ∀ t ∈ ts, Tok.goodb t = true)
    (hend : ts = [] ∨ ∃ a fl vb, ts = a ++ [Tok.ph fl vb])
    (hr : ∀ c ∈ r, ¬(c = PLACEHOLDER))
    (hq : ∀ c ∈ q, isVerb c = false ∧ ¬(c = ESCAPE))
    (hlen : args.length = countPh ts)
    (hbody : renderToks sp args 0 ts = some body) :
    writefRun sp tf lvl (flatten ts ++ (r ++ PLACEHOLDER :: q)) args
      = some (tf ++ lvl.prefixStr ++ (body ++ r) ++ (r ++ PLACEHOLDER :: q)
                ++ [EOL],
              tf.length + lvl.prefixStr.length + (body ++ r).length
                + (r ++ PLACEHOLDER :: q).length + 1) := by
  obtain ⟨st1, hloop, h1, h2, h3, h4, h6⟩ :=
    scanLoop_toks sp args (flatten ts ++ (r ++ PLACEHOLDER :: q)) ts []
      (r ++ PLACEHOLDER :: q) (scanInit (tf.length + lvl.prefixStr.length))
      body (by simp) hgood rfl rfl (by simp [scanInit]) hbody
  obtain ⟨h5, h6⟩ := h6
  simp only [List.length_nil] at hloop h3
  have hlast1 : st1.last = (flatten ts).length := by
    rcases hend with hnil | ⟨a, fl, vb, hts⟩
    · subst hnil
      rw [h3]
      simp [lastAfter, flatten_nil, scanInit]
    · rw [h3, hts, lastAfter_end]
      rw [← hts]
      simp [scanInit]
  have hout1 : st1.out = body := by
    have h6' : st1.out ++ slice (flatten ts ++ (r ++ PLACEHOLDER :: q))
        st1.last (0 + (flatten ts).length) = body := by
      simpa [scanInit, slice_self] using h6
    rw [hlast1] at h6'
    simpa [slice_self] using h6'
  -- scanning the literal run r changes nothing
  have hrstep : scanLoop sp args (flatten ts ++ (r ++ PLACEHOLDER :: q))
      (flatten ts).length r st1 = some st1 :=
    scanLoop_outside_noop sp args _ r (flatten ts).length st1 h1 hr
  -- the percent opens a placeholder, flushing the run since `last`
  have hsliceR : slice (flatten ts ++ (r ++ PLACEHOLDER :: q))
      (flatten ts).length ((flatten ts).length + r.length) = r :=
    slice_mid (flatten ts) r (PLACEHOLDER :: q)
  have hopen : scanChar sp args (flatten ts ++ (r ++ PLACEHOLDER :: q))
      ((flatten ts).length + r.length) PLACEHOLDER st1
      = some { st1 with
                 tag := true, tagPos := (flatten ts).length + r.length,
                 out := st1.out ++ r,
                 size := st1.size + r.length,
                 escape := false } := by
    rw [scanChar_open h1 h2, hlast1, hsliceR]
  -- scanning q inside the open placeholder changes nothing
  have hqstep : scanLoop sp args (flatten ts ++ (r ++ PLACEHOLDER :: q))
      ((flatten ts).length + r.length + 1) q
      { st1 with
          tag := true, tagPos := (flatten ts).length + r.length,
          out := st1.out ++ r,
          size := st1.size + r.length,
          escape := false }
      = some { st1 with
                 tag := true, tagPos := (flatten ts).length + r.length,
                 out := st1.out ++ r,
                 size := st1.size + r.length,
                 escape := false } :=
    scanLoop_inTag_noop sp args _ q _ _ rfl hq
  have hchain : scanLoop sp args (flatten ts ++ (r ++ PLACEHOLDER :: q)) 0
      (flatten ts ++ (r ++ PLACEHOLDER :: q))
      (scanInit (tf.length + lvl.prefixStr.length))
      = some { st1 with
                 tag := true, tagPos := (flatten ts).length + r.length,
                 out := st1.out ++ r,
                 size := st1.size + r.length,
                 escape := false } := by
    rw [scanLoop_append, hloop]
    simp only [Option.some_bind, Nat.zero_add]
    rw [scanLoop_append, hrstep]
    simp only [Option.some_bind]
    rw [scanLoop_cons, hopen]
    dsimp only
    exact hqstep
  have hsz := scanLoop_size hchain
  simp [scanInit] at hsz
  unfold writefRun
  rw [hchain]
  dsimp only
  have hdrop : (flatten ts ++ (r ++ PLACEHOLDER :: q)).drop st1.last
      = r ++ PLACEHOLDER :: q := by
    rw [hlast1]
    exact List.drop_left _ _
  have e1 : tf ++ lvl.prefixStr ++ (st1.out ++ r)
        ++ (flatten ts ++ (r ++ PLACEHOLDER :: q)).drop st1.last ++ [EOL]
      = tf ++ lvl.prefixStr ++ (body ++ r) ++ (r ++ PLACEHOLDER :: q)
          ++ [EOL] := by
    rw [hdrop, hout1]
  have e2 : st1.size + r.length
        + ((flatten ts ++ (r ++ PLACEHOLDER :: q)).drop st1.last).length + 1
      = tf.length + lvl.prefixStr.length + (body ++ r).length
          + (r ++ PLACEHOLDER :: q).length + 1 := by
    rw [hdrop]
    have : st1.out.length = body.length := by rw [hout1]
    simp [List.length_append]
    omega
  rw [e1, e2]

/-- Witness for C10: the format "ab%" — the run "ab" is appended twice
and no argument is consumed. -/
theorem writef_unterminated_placeholder_witness :
    writefRun sprintfModel ("T ".toList) Level.info
        (flatten [] ++ (("ab".toList) ++ PLACEHOLDER :: [])) []
      = some (("T ".toList) ++ Level.info.prefixStr
                ++ (([] : List Char) ++ ("ab".toList))
                ++ (("ab".toList) ++ PLACEHOLDER :: []) ++ [EOL],
              ("T ".toList).length + (Level.info.prefixStr).length
                + (([] : List Char) ++ ("ab".toList)).length
                + (("ab".toList) ++ PLACEHOLDER :: []).length + 1) :=
  writef_unterminated_placeholder sprintfModel ("T ".toList) Level.info []
    ("ab".toList) [] [] [] (by decide) (Or.inl rfl) (by decide) (by decide)
    rfl rfl

end Blog4go
